import Mathlib

/-!
# Verification of the producer/consumer core of `ImageWriter.c`

`ImageWriter` copies a source byte stream to a destination through a ring of
`num_block` slots of `block_size` bytes each.  A reader thread fills slots and
a writer thread drains them; the shared counter `numToWrite` counts slots
produced but not yet consumed.  This file gives a shallow embedding of the two
thread loop bodies as guarded atomic steps of a transition system, an
interleaving semantics, and proofs of the stated properties.

Modeling conventions:

* Each full iteration of a thread's loop body is one atomic guarded step.
  In the C source the wait (`pthread_cond_wait` under `rw_mutex`) and the
  counter update are separate critical sections, but with a single producer
  and a single consumer the thread past its wait proceeds exactly when its
  guard holds (`numToWrite < num_block` for the reader, `numToWrite >= 1`
  for the writer): only the peer thread moves the counter in the adverse
  direction and it signals immediately after moving it the other way.  The
  two threads touch disjoint slots while both are active (shown by the
  invariant below), so the coarser atomicity does not hide any behavior of
  the data path.
* The C arrays `blocks` (slot metadata) and `buf` (slot data regions) are
  modeled as total functions from slot index; only indices `< num_block` are
  ever accessed.  The flat `char` buffer is modeled per slot region: the C
  reader stores `ret` bytes at offset `idx*block_size` and the writer later
  reads back exactly `blocks[idx].size = ret` bytes from that offset, so
  replacing the whole region by the freshly read chunk is exact (the stale
  region tail is never read).
* `numToWrite` is an `unsigned int` in C; it is modeled as `Int` so that the
  claim that it never becomes negative (never underflows/wraps) is a real
  statement, proved as an invariant.
* A `read(2)` call on the source returns the next `min block_size remaining`
  bytes (the no-error hypothesis of the functional claims); `err = some e`
  injects a failing read (return `-1`) at the `e`-th read call.  Writes to
  the destination transfer all requested bytes (the no-write-error
  hypothesis); `out` accumulates the bytes written in order.
* Ghost history fields (`rCount`, `wCount`, `log`) record how many slots were
  published/consumed and the published slot metadata in order; they do not
  influence the dynamics.
-/

namespace ImageWriter

/-- Per-slot metadata, `struct block` in the C source.  The C field `end` is a
Lean keyword; it is called `endF` here. -/
structure Slot where
  size : Nat
  endF : Bool
deriving DecidableEq, Repr

/-- The state of the copy: the `thread_data` fields the claims mention, the
two threads' local slot cursors (`idx` in `readerThread` / `writerThread`),
the remaining source bytes (the file position of `file_in`), the bytes written
to the destination so far, termination flags for the two threads, and ghost
history fields `rCount` / `wCount` / `log`. -/
structure State where
  numToWrite : Int
  blocks : Nat → Slot
  buf : Nat → List Nat
  idxR : Nat
  idxW : Nat
  srcRem : List Nat
  read : Nat
  wrote : Nat
  out : List Nat
  rDone : Bool
  wDone : Bool
  rCount : Nat
  wCount : Nat
  log : List Slot

/-- Pointwise array update, `a[i] = v`. -/
def setAt (f : Nat → α) (i : Nat) (v : α) : Nat → α :=
  fun j => if j = i then v else f j

/-- Advance a cursor cyclically: the `next_block_idx` macro of the C source. -/
def next_block_idx (num_block curr_block : Nat) : Nat :=
  (curr_block + 1) % num_block

/-- One iteration of the `readerThread` loop body (`ImageWriter.c` lines
68-101), taken once the thread is past its wait.  `err = some e` makes the
`e`-th `read` call return `-1`: the error path records `end = true` and
`size = 0` on the current slot and exits without publishing (no `numToWrite`
increment, no signal).  Otherwise `read` returns `ret = min block_size
remaining` bytes.  `ret = 0` marks the slot `end = true` and falls through to
record `size = ret` (the C `switch` fall-through); `ret > 0` records the size
and leaves the recycled slot's `end` field as it was.  The slot is then
published (`numToWrite++`, signal) and the thread exits if the slot was
end-marked, else accounts `read += size`, advances its cursor and loops. -/
def readerStep (block_size num_block : Nat) (err : Option Nat) (s : State) : State :=
  if err = some s.rCount then
    { s with blocks := setAt s.blocks s.idxR ⟨0, true⟩, rDone := true }
  else
    let ret := min block_size s.srcRem.length
    let chunk := s.srcRem.take block_size
    let slot : Slot := ⟨ret, if ret = 0 then true else (s.blocks s.idxR).endF⟩
    let s1 := { s with
      blocks := setAt s.blocks s.idxR slot,
      buf := setAt s.buf s.idxR chunk,
      numToWrite := s.numToWrite + 1,
      rCount := s.rCount + 1,
      log := s.log ++ [slot] }
    if slot.endF then
      { s1 with rDone := true }
    else
      { s1 with
        read := s1.read + slot.size,
        srcRem := s1.srcRem.drop ret,
        idxR := next_block_idx num_block s1.idxR }

/-- One iteration of the `writerThread` loop body (`ImageWriter.c` lines
109-129), taken once the thread is past its wait.  The writer writes the
slot's recorded `size` bytes from the slot's data region to the destination
(under the no-write-error hypothesis all requested bytes are transferred).
If the slot is end-marked the thread exits, without decrementing `numToWrite`
and without signaling; otherwise it releases the slot (`numToWrite--`,
signal), accounts `wrote += size`, advances its cursor and loops. -/
def writerStep (num_block : Nat) (s : State) : State :=
  let slot := s.blocks s.idxW
  let data := (s.buf s.idxW).take slot.size
  let s1 := { s with out := s.out ++ data, wCount := s.wCount + 1 }
  if slot.endF then
    { s1 with wDone := true }
  else
    { s1 with
      numToWrite := s1.numToWrite - 1,
      wrote := s1.wrote + slot.size,
      idxW := next_block_idx num_block s1.idxW }

/-- The reader may take a step: it has not exited and it is past the
`numToWrite >= num_block` wait. -/
def readerEnabled (num_block : Nat) (s : State) : Bool :=
  !s.rDone && decide (s.numToWrite < (num_block : Int))

/-- The writer may take a step: it has not exited and it is past the
`numToWrite < 1` wait. -/
def writerEnabled (s : State) : Bool :=
  !s.wDone && decide (1 ≤ s.numToWrite)

/-- Interleaving semantics: at any moment either enabled thread may run one
iteration of its loop body. -/
inductive Step (block_size num_block : Nat) (err : Option Nat) : State → State → Prop
  | reader (s : State) (h : readerEnabled num_block s = true) :
      Step block_size num_block err s (readerStep block_size num_block err s)
  | writer (s : State) (h : writerEnabled s = true) :
      Step block_size num_block err s (writerStep num_block s)

/-- The state set up by `main` before the threads start: `numToWrite = 0`,
counters zero, slot metadata zero-initialized by `calloc` (size 0, `end`
false), data regions `buf0` uninitialized (`malloc`), the whole source still
unread, nothing written. -/
def initState (num_block : Nat) (src : List Nat) (buf0 : Nat → List Nat) : State :=
  { numToWrite := 0
    blocks := fun _ => ⟨0, false⟩
    buf := buf0
    idxR := 0
    idxW := 0
    srcRem := src
    read := 0
    wrote := 0
    out := []
    rDone := false
    wDone := false
    rCount := 0
    wCount := 0
    log := [] }

/-- States reachable by some interleaving of reader and writer steps from the
initial state. -/
def Reachable (block_size num_block : Nat) (err : Option Nat)
    (src : List Nat) (buf0 : Nat → List Nat) (s : State) : Prop :=
  Relation.ReflTransGen (Step block_size num_block err) (initState num_block src buf0) s

/-! ## The status observer -/

/-- C unsigned division as used in `statusWriter`; division by zero is
undefined behavior in C, rendered as `none`. -/
def cdiv (a b : Nat) : Option Nat :=
  if b = 0 then none else some (a / b)

/-- One tick of `statusWriter` (`ImageWriter.c` lines 57-61): the pair of
percentages `(td->read * 100) / td->fsize` and `(td->wrote * 100) / td->fsize`
printed by the status line, with no guard on the divisor. -/
def statusTick (read wrote fsize : Nat) : Option (Nat × Nat) :=
  match cdiv (read * 100) fsize, cdiv (wrote * 100) fsize with
  | some r, some w => some (r, w)
  | _, _ => none

/-- Total source length: `td.fsize` as computed by `main` (`lseek` to the end
of the input file). -/
def fsizeOf (src : List Nat) : Nat :=
  src.length

/-! ## Characterization of published slots

In an error-free run the `j`-th published slot (0-based) is fully determined
by the source length `L` and the block size: the read at source offset
`j * block_size` returns `min block_size (L - j * block_size)` bytes, and the
slot is end-marked exactly when nothing remained. -/

/-- Metadata of the `j`-th published slot in an error-free run over a source
of length `L`. -/
def slotSpec (block_size L j : Nat) : Slot :=
  ⟨min block_size (L - j * block_size), decide (L ≤ j * block_size)⟩

/-- Data region content of the `j`-th published slot in an error-free run. -/
def chunkSpec (block_size : Nat) (src : List Nat) (j : Nat) : List Nat :=
  (src.drop (j * block_size)).take block_size

/-! ## Basic lemmas about the embedding -/

theorem setAt_self (f : Nat → α) (i : Nat) (v : α) : setAt f i v i = v := by
  simp [setAt]

theorem setAt_ne (f : Nat → α) (i j : Nat) (v : α) (h : j ≠ i) : setAt f i v j = f j := by
  simp [setAt, h]

/-- Two distinct slot positions less than a buffer lap apart map to distinct
ring indices. -/
theorem mod_ne_of_between {a b n : Nat} (h1 : a < b) (h2 : b < a + n) :
    a % n ≠ b % n := by
  intro h
  have hmod : a ≡ b [MOD n] := h
  have hdvd : n ∣ b - a := (Nat.modEq_iff_dvd' (Nat.le_of_lt h1)).mp hmod
  have hpos : 0 < b - a := by omega
  have := Nat.le_of_dvd hpos hdvd
  omega

/-- Summing one more bounded read: `min a c` bytes so far plus the
`min b (c - a)` bytes of the next read make `min (a + b) c` bytes. -/
theorem min_add_min (a b c : Nat) : min a c + min b (c - a) = min (a + b) c := by
  omega

/-- Dropping the bytes consumed by one bounded read is dropping a full block:
past the end of the list both drops are empty. -/
theorem drop_add_min (src : List Nat) (a bs : Nat) :
    src.drop (a + min bs (src.length - a)) = src.drop (a + bs) := by
  rcases le_or_lt bs (src.length - a) with h | h
  · rw [min_eq_left h]
  · rw [min_eq_right (le_of_lt h)]
    rw [List.drop_eq_nil_of_le (by omega), List.drop_eq_nil_of_le (by omega)]

/-- Lengths agree: `chunkSpec` is exactly as long as the matching `slotSpec`
records. -/
theorem chunkSpec_length (block_size : Nat) (src : List Nat) (j : Nat) :
    (chunkSpec block_size src j).length = (slotSpec block_size src.length j).size := by
  simp [chunkSpec, slotSpec, List.length_take, List.length_drop]

/-! ## Step-shape lemmas

The two branches each loop body can take, written out as explicit record
updates. -/

theorem readerStep_err {block_size num_block : Nat} {err : Option Nat} {s : State}
    (he : err = some s.rCount) :
    readerStep block_size num_block err s =
      { s with blocks := setAt s.blocks s.idxR ⟨0, true⟩, rDone := true } := by
  simp [readerStep, he]

theorem readerStep_end {block_size num_block : Nat} {err : Option Nat} {s : State}
    (herr : ¬ err = some s.rCount)
    (hret : min block_size s.srcRem.length = 0) :
    readerStep block_size num_block err s =
      { s with
        blocks := setAt s.blocks s.idxR ⟨0, true⟩
        buf := setAt s.buf s.idxR (s.srcRem.take block_size)
        numToWrite := s.numToWrite + 1
        rCount := s.rCount + 1
        log := s.log ++ [⟨0, true⟩]
        rDone := true } := by
  simp [readerStep, herr, hret]

theorem readerStep_cont {block_size num_block : Nat} {err : Option Nat} {s : State}
    (herr : ¬ err = some s.rCount)
    (hend : (s.blocks s.idxR).endF = false)
    (hret : min block_size s.srcRem.length ≠ 0) :
    readerStep block_size num_block err s =
      { s with
        blocks := setAt s.blocks s.idxR ⟨min block_size s.srcRem.length, false⟩
        buf := setAt s.buf s.idxR (s.srcRem.take block_size)
        numToWrite := s.numToWrite + 1
        rCount := s.rCount + 1
        log := s.log ++ [⟨min block_size s.srcRem.length, false⟩]
        read := s.read + min block_size s.srcRem.length
        srcRem := s.srcRem.drop (min block_size s.srcRem.length)
        idxR := (s.idxR + 1) % num_block } := by
  simp [readerStep, herr, hend, hret, next_block_idx]

theorem writerStep_end {num_block : Nat} {s : State}
    (hend : (s.blocks s.idxW).endF = true) :
    writerStep num_block s =
      { s with
        out := s.out ++ (s.buf s.idxW).take (s.blocks s.idxW).size
        wCount := s.wCount + 1
        wDone := true } := by
  simp [writerStep, hend]

theorem writerStep_cont {num_block : Nat} {s : State}
    (hend : (s.blocks s.idxW).endF = false) :
    writerStep num_block s =
      { s with
        out := s.out ++ (s.buf s.idxW).take (s.blocks s.idxW).size
        wCount := s.wCount + 1
        numToWrite := s.numToWrite - 1
        wrote := s.wrote + (s.blocks s.idxW).size
        idxW := (s.idxW + 1) % num_block } := by
  simp [writerStep, hend, next_block_idx]

/-! ## The main invariant (error-free execution)

`Inv` relates every reachable state of an error-free run to the source.  The
ghost counters `rCount` / `wCount` count slots published / consumed; the
window `[wCount, rCount)` holds the slots produced but not yet consumed, and
`numToWrite` is exactly its width (plus one after the writer has consumed the
end-marked slot without releasing it). -/

structure Inv (block_size num_block : Nat) (src : List Nat) (s : State) : Prop where
  idxR_eq : s.rDone = false → s.idxR = s.rCount % num_block
  idxW_eq : s.wDone = false → s.idxW = s.wCount % num_block
  w_le_r : s.wCount ≤ s.rCount
  window_le : s.rCount - s.wCount ≤ num_block
  ntw_lb : 0 ≤ s.numToWrite
  ntw_ub : s.numToWrite ≤ (num_block : Int)
  ntw_eq : s.wDone = false → s.numToWrite = (s.rCount : Int) - (s.wCount : Int)
  ntw_done : s.wDone = true → s.numToWrite = (s.rCount : Int) - (s.wCount : Int) + 1
  log_eq : s.log = (List.range s.rCount).map (slotSpec block_size src.length)
  window_blocks : ∀ j, s.wCount ≤ j → j < s.rCount →
      s.blocks (j % num_block) = slotSpec block_size src.length j
  window_buf : ∀ j, s.wCount ≤ j → j < s.rCount →
      s.buf (j % num_block) = chunkSpec block_size src j
  reader_live : s.rDone = false →
      s.srcRem = src.drop (s.rCount * block_size)
      ∧ s.read = min (s.rCount * block_size) src.length
      ∧ (∀ j, j < s.rCount → j * block_size < src.length)
      ∧ (∀ i, (s.blocks i).endF = false)
  reader_done : s.rDone = true →
      s.read = src.length ∧ 1 ≤ s.rCount
      ∧ src.length ≤ (s.rCount - 1) * block_size
      ∧ (∀ j, j < s.rCount - 1 → j * block_size < src.length)
  writer_live : s.wDone = false →
      s.out = src.take (s.wCount * block_size)
      ∧ s.wrote = min (s.wCount * block_size) src.length
      ∧ (∀ j, j < s.wCount → j * block_size < src.length)
  writer_done : s.wDone = true →
      s.out = src ∧ s.wrote = src.length ∧ s.rDone = true ∧ s.wCount = s.rCount

theorem inv_init (block_size num_block : Nat) (src : List Nat) (buf0 : Nat → List Nat) :
    Inv block_size num_block src (initState num_block src buf0) where
  idxR_eq := by intro _; simp [initState]
  idxW_eq := by intro _; simp [initState]
  w_le_r := le_refl _
  window_le := by simp [initState]
  ntw_lb := le_refl _
  ntw_ub := by simp [initState]
  ntw_eq := by intro _; simp [initState]
  ntw_done := by intro h; simp [initState] at h
  log_eq := by simp [initState]
  window_blocks := by intro j _ hj; simp [initState] at hj
  window_buf := by intro j _ hj; simp [initState] at hj
  reader_live := by intro _; simp [initState]
  reader_done := by intro h; simp [initState] at h
  writer_live := by intro _; simp [initState]
  writer_done := by intro h; simp [initState] at h

theorem inv_reader_step {block_size num_block : Nat} {src : List Nat} {s : State}
    (hbs : 1 ≤ block_size)
    (hinv : Inv block_size num_block src s)
    (h : readerEnabled num_block s = true) :
    Inv block_size num_block src (readerStep block_size num_block none s) := by
  obtain ⟨hrd, hlt⟩ : s.rDone = false ∧ s.numToWrite < (num_block : Int) := by
    simpa [readerEnabled] using h
  have hwd : s.wDone = false := by
    by_contra hw
    have hw' : s.wDone = true := by simpa using hw
    have := (hinv.writer_done hw').2.2.1
    rw [hrd] at this
    exact Bool.false_ne_true this
  obtain ⟨hsrc, hread, hjlt, hendall⟩ := hinv.reader_live hrd
  have hidxR := hinv.idxR_eq hrd
  have hntw := hinv.ntw_eq hwd
  have hwr := hinv.w_le_r
  have hwin : s.rCount - s.wCount < num_block := by omega
  have hlen : s.srcRem.length = src.length - s.rCount * block_size := by
    rw [hsrc, List.length_drop]
  by_cases hret : min block_size s.srcRem.length = 0
  case pos =>
    -- the read returned 0 bytes: publish the end-marked slot and exit
    have hLle : src.length ≤ s.rCount * block_size := by omega
    have hslot : slotSpec block_size src.length s.rCount = ⟨0, true⟩ := by
      simp [slotSpec]
      omega
    rw [readerStep_end (by simp) hret]
    exact {
      idxR_eq := by intro hh; simp at hh
      idxW_eq := by intro hh; exact hinv.idxW_eq hh
      w_le_r := by simp; omega
      window_le := by simp; omega
      ntw_lb := by simp; omega
      ntw_ub := by simp; omega
      ntw_eq := by intro hh; simp at hh ⊢; omega
      ntw_done := by intro hh; simp at hh; rw [hh] at hwd; cases hwd
      log_eq := by
        simp only [List.range_succ, List.map_append, List.map_cons, List.map_nil]
        rw [hinv.log_eq, hslot]
      window_blocks := by
        intro j hjw hjr
        simp only at hjw hjr ⊢
        rcases Nat.lt_succ_iff_lt_or_eq.mp hjr with hj | hj
        · rw [hidxR, setAt_ne _ _ _ _ (mod_ne_of_between hj (by omega))]
          exact hinv.window_blocks j hjw hj
        · subst hj
          rw [hidxR, setAt_self, hslot]
      window_buf := by
        intro j hjw hjr
        simp only at hjw hjr ⊢
        rcases Nat.lt_succ_iff_lt_or_eq.mp hjr with hj | hj
        · rw [hidxR, setAt_ne _ _ _ _ (mod_ne_of_between hj (by omega))]
          exact hinv.window_buf j hjw hj
        · subst hj
          rw [hidxR, setAt_self, hsrc, chunkSpec]
      reader_live := by intro hh; simp at hh
      reader_done := by
        intro _
        refine ⟨by simp [hread]; omega, by simp, by simp; omega, ?_⟩
        intro j hj
        simp at hj
        exact hjlt j hj
      writer_live := by
        intro hh
        simpa using hinv.writer_live (by simpa using hh)
      writer_done := by
        intro hh
        simp at hh
        rw [hh] at hwd; cases hwd }
  case neg =>
    -- the read returned ret > 0 bytes: publish, account, advance
    have hklt : s.rCount * block_size < src.length := by omega
    have hslot : slotSpec block_size src.length s.rCount
        = ⟨min block_size s.srcRem.length, false⟩ := by
      simp [slotSpec, hlen]
      omega
    have hend : (s.blocks s.idxR).endF = false := hendall s.idxR
    rw [readerStep_cont (by simp) hend hret]
    exact {
      idxR_eq := by
        intro _
        simp only [hidxR]
        exact Nat.mod_add_mod s.rCount num_block 1
      idxW_eq := by intro hh; exact hinv.idxW_eq hh
      w_le_r := by simp; omega
      window_le := by simp; omega
      ntw_lb := by simp; omega
      ntw_ub := by simp; omega
      ntw_eq := by intro hh; simp at hh ⊢; omega
      ntw_done := by intro hh; simp at hh; rw [hh] at hwd; cases hwd
      log_eq := by
        simp only [List.range_succ, List.map_append, List.map_cons, List.map_nil]
        rw [hinv.log_eq, hslot]
      window_blocks := by
        intro j hjw hjr
        simp only at hjw hjr ⊢
        rcases Nat.lt_succ_iff_lt_or_eq.mp hjr with hj | hj
        · rw [hidxR, setAt_ne _ _ _ _ (mod_ne_of_between hj (by omega))]
          exact hinv.window_blocks j hjw hj
        · subst hj
          rw [hidxR, setAt_self, hslot]
      window_buf := by
        intro j hjw hjr
        simp only at hjw hjr ⊢
        rcases Nat.lt_succ_iff_lt_or_eq.mp hjr with hj | hj
        · rw [hidxR, setAt_ne _ _ _ _ (mod_ne_of_between hj (by omega))]
          exact hinv.window_buf j hjw hj
        · subst hj
          rw [hidxR, setAt_self, hsrc, chunkSpec]
      reader_live := by
        intro _
        refine ⟨?_, ?_, ?_, ?_⟩
        · show s.srcRem.drop (min block_size s.srcRem.length)
            = src.drop ((s.rCount + 1) * block_size)
          rw [hsrc, List.drop_drop, List.length_drop, drop_add_min, Nat.succ_mul]
        · show s.read + min block_size s.srcRem.length
            = min ((s.rCount + 1) * block_size) src.length
          rw [hread, hlen, Nat.succ_mul]
          exact min_add_min _ _ _
        · intro j hj
          simp at hj
          rcases Nat.lt_succ_iff_lt_or_eq.mp hj with hj | hj
          · exact hjlt j hj
          · subst hj; exact hklt
        · intro i
          dsimp only
          by_cases hi : i = s.idxR
          · subst hi; rw [setAt_self]
          · rw [setAt_ne _ _ _ _ hi]; exact hendall i
      reader_done := by intro hh; simp at hh; rw [hh] at hrd; cases hrd
      writer_live := by
        intro hh
        simpa using hinv.writer_live (by simpa using hh)
      writer_done := by
        intro hh
        simp at hh
        rw [hh] at hwd; cases hwd }

theorem inv_writer_step {block_size num_block : Nat} {src : List Nat} {s : State}
    (hinv : Inv block_size num_block src s)
    (h : writerEnabled s = true) :
    Inv block_size num_block src (writerStep num_block s) := by
  obtain ⟨hwd, hge⟩ : s.wDone = false ∧ 1 ≤ s.numToWrite := by
    simpa [writerEnabled] using h
  have hntw := hinv.ntw_eq hwd
  have hwr := hinv.w_le_r
  have hwlt : s.wCount < s.rCount := by omega
  have hidxW := hinv.idxW_eq hwd
  have hwin := hinv.window_le
  obtain ⟨hout, hwrote, hwjlt⟩ := hinv.writer_live hwd
  have hslot : s.blocks s.idxW = slotSpec block_size src.length s.wCount := by
    rw [hidxW]; exact hinv.window_blocks s.wCount (le_refl _) hwlt
  have hbuf : s.buf s.idxW = chunkSpec block_size src s.wCount := by
    rw [hidxW]; exact hinv.window_buf s.wCount (le_refl _) hwlt
  have hdata : (s.buf s.idxW).take (s.blocks s.idxW).size
      = chunkSpec block_size src s.wCount := by
    rw [hbuf, hslot, ← chunkSpec_length]
    exact List.take_length _
  by_cases hew : src.length ≤ s.wCount * block_size
  case pos =>
    -- the consumed slot is end-marked: write it out and exit without release
    have hend : (s.blocks s.idxW).endF = true := by
      rw [hslot]; simp [slotSpec, hew]
    have hrdone : s.rDone = true := by
      by_contra hr
      have hr' : s.rDone = false := by simpa using hr
      have := (hinv.reader_live hr').2.2.2 s.idxW
      rw [hend] at this
      exact Bool.false_ne_true this.symm
    obtain ⟨hreadL, hk1, hLk, hjlt2⟩ := hinv.reader_done hrdone
    have hwk : s.wCount = s.rCount - 1 := by
      by_contra hne
      have hlt2 : s.wCount < s.rCount - 1 := by omega
      have := hjlt2 s.wCount hlt2
      omega
    have hsz : (s.blocks s.idxW).size = 0 := by
      rw [hslot]; simp [slotSpec]; omega
    rw [writerStep_end hend]
    exact {
      idxR_eq := by intro hh; simp at hh; rw [hh] at hrdone; cases hrdone
      idxW_eq := by intro hh; simp at hh
      w_le_r := by simp; omega
      window_le := by simp; omega
      ntw_lb := by simpa using hinv.ntw_lb
      ntw_ub := by simpa using hinv.ntw_ub
      ntw_eq := by intro hh; simp at hh
      ntw_done := by intro _; simp; omega
      log_eq := hinv.log_eq
      window_blocks := by
        intro j hjw hjr
        simp at hjw hjr
        exact hinv.window_blocks j (by omega) hjr
      window_buf := by
        intro j hjw hjr
        simp at hjw hjr
        exact hinv.window_buf j (by omega) hjr
      reader_live := by intro hh; simp at hh; rw [hh] at hrdone; cases hrdone
      reader_done := by intro _; exact hinv.reader_done hrdone
      writer_live := by intro hh; simp at hh
      writer_done := by
        intro _
        refine ⟨?_, ?_, hrdone, by simp; omega⟩
        · show s.out ++ (s.buf s.idxW).take (s.blocks s.idxW).size = src
          rw [hsz, List.take_zero, List.append_nil, hout]
          exact List.take_of_length_le (by omega)
        · show s.wrote = src.length
          rw [hwrote]; omega }
  case neg =>
    -- ordinary slot: write it out, release it, advance
    have hend : (s.blocks s.idxW).endF = false := by
      rw [hslot]; simp [slotSpec]; omega
    rw [writerStep_cont hend]
    exact {
      idxR_eq := by
        intro hh
        simp only at hh ⊢
        exact hinv.idxR_eq hh
      idxW_eq := by
        intro _
        simp only [hidxW]
        exact Nat.mod_add_mod s.wCount num_block 1
      w_le_r := by simp; omega
      window_le := by simp; omega
      ntw_lb := by simp; omega
      ntw_ub := by
        have := hinv.ntw_ub
        simp
        omega
      ntw_eq := by intro _; simp; omega
      ntw_done := by intro hh; simp at hh; rw [hh] at hwd; cases hwd
      log_eq := hinv.log_eq
      window_blocks := by
        intro j hjw hjr
        simp at hjw hjr
        exact hinv.window_blocks j (by omega) hjr
      window_buf := by
        intro j hjw hjr
        simp at hjw hjr
        exact hinv.window_buf j (by omega) hjr
      reader_live := by
        intro hh
        simp only at hh
        obtain ⟨h1, h2, h3, h4⟩ := hinv.reader_live hh
        exact ⟨h1, h2, h3, h4⟩
      reader_done := by
        intro hh
        simp only at hh
        exact hinv.reader_done hh
      writer_live := by
        intro _
        have hwsz : s.wCount * block_size < src.length := by omega
        refine ⟨?_, ?_, ?_⟩
        · show s.out ++ (s.buf s.idxW).take (s.blocks s.idxW).size
            = src.take ((s.wCount + 1) * block_size)
          rw [hdata, hout, chunkSpec, Nat.succ_mul, List.take_add]
        · show s.wrote + (s.blocks s.idxW).size
            = min ((s.wCount + 1) * block_size) src.length
          rw [hwrote, hslot]
          show min (s.wCount * block_size) src.length
              + min block_size (src.length - s.wCount * block_size)
            = min ((s.wCount + 1) * block_size) src.length
          rw [Nat.succ_mul]
          exact min_add_min _ _ _
        · intro j hj
          simp at hj
          rcases Nat.lt_succ_iff_lt_or_eq.mp hj with hj | hj
          · exact hwjlt j hj
          · subst hj; omega
      writer_done := by intro hh; simp at hh; rw [hh] at hwd; cases hwd }

/-- The invariant holds in every state reachable by any error-free
interleaving. -/
theorem inv_reachable {block_size num_block : Nat} {src : List Nat}
    {buf0 : Nat → List Nat} {s : State}
    (hbs : 1 ≤ block_size)
    (hr : Reachable block_size num_block none src buf0 s) :
    Inv block_size num_block src s := by
  induction hr with
  | refl => exact inv_init block_size num_block src buf0
  | tail _ hstep ih =>
    cases hstep with
    | reader ht => exact inv_reader_step hbs ih ht
    | writer ht => exact inv_writer_step ih ht

/-! ## Persistence of termination

Once a thread has exited it never acts again; in particular an end-marked
slot is the last slot either thread touches. -/

/-- A reader iteration leaves the writer-owned fields alone. -/
theorem readerStep_writer_fields (block_size num_block : Nat) (err : Option Nat) (s : State) :
    (readerStep block_size num_block err s).wDone = s.wDone
    ∧ (readerStep block_size num_block err s).wCount = s.wCount
    ∧ (readerStep block_size num_block err s).out = s.out := by
  by_cases he : err = some s.rCount
  · simp [readerStep, he]
  · by_cases h0 : min block_size s.srcRem.length = 0
    · simp [readerStep, he, h0]
    · by_cases h1 : (s.blocks s.idxR).endF = true
      · simp [readerStep, he, h0, h1]
      · simp [readerStep, he, h0, h1]

/-- A writer iteration leaves the reader-owned fields alone. -/
theorem writerStep_reader_fields (num_block : Nat) (s : State) :
    (writerStep num_block s).rDone = s.rDone
    ∧ (writerStep num_block s).rCount = s.rCount
    ∧ (writerStep num_block s).log = s.log
    ∧ (writerStep num_block s).blocks = s.blocks := by
  by_cases h1 : (s.blocks s.idxW).endF = true
  · rw [writerStep_end h1]
    exact ⟨rfl, rfl, rfl, rfl⟩
  · rw [writerStep_cont (by simpa using h1)]
    exact ⟨rfl, rfl, rfl, rfl⟩

/-- After the reader has exited, a single further step publishes nothing: the
published-slot count, the log and the exit flag are frozen. -/
theorem step_rDone_frozen {block_size num_block : Nat} {err : Option Nat} {s t : State}
    (hst : Step block_size num_block err s t) (h : s.rDone = true) :
    t.rDone = true ∧ t.rCount = s.rCount ∧ t.log = s.log := by
  cases hst with
  | reader ht => rw [readerEnabled, h] at ht; simp at ht
  | writer ht =>
    obtain ⟨h1, h2, h3, _⟩ := writerStep_reader_fields num_block s
    exact ⟨h1.trans h, h2, h3⟩

/-- After the writer has exited, a single further step consumes nothing: the
consumed-slot count, the destination and the exit flag are frozen. -/
theorem step_wDone_frozen {block_size num_block : Nat} {err : Option Nat} {s t : State}
    (hst : Step block_size num_block err s t) (h : s.wDone = true) :
    t.wDone = true ∧ t.wCount = s.wCount ∧ t.out = s.out := by
  cases hst with
  | writer ht => rw [writerEnabled, h] at ht; simp at ht
  | reader ht =>
    obtain ⟨h1, h2, h3⟩ := readerStep_writer_fields block_size num_block err s
    exact ⟨h1.trans h, h2, h3⟩

/-- Reader exit is permanent along any run, and the published-slot count and
log never change afterwards. -/
theorem rtg_rDone_frozen {block_size num_block : Nat} {err : Option Nat} {s t : State}
    (hr : Relation.ReflTransGen (Step block_size num_block err) s t)
    (h : s.rDone = true) :
    t.rDone = true ∧ t.rCount = s.rCount ∧ t.log = s.log := by
  induction hr with
  | refl => exact ⟨h, rfl, rfl⟩
  | tail _ hbc ih =>
    obtain ⟨h1, h2, h3⟩ := ih
    obtain ⟨g1, g2, g3⟩ := step_rDone_frozen hbc h1
    exact ⟨g1, g2.trans h2, g3.trans h3⟩

/-- Writer exit is permanent along any run, and the consumed-slot count and
destination never change afterwards. -/
theorem rtg_wDone_frozen {block_size num_block : Nat} {err : Option Nat} {s t : State}
    (hr : Relation.ReflTransGen (Step block_size num_block err) s t)
    (h : s.wDone = true) :
    t.wDone = true ∧ t.wCount = s.wCount ∧ t.out = s.out := by
  induction hr with
  | refl => exact ⟨h, rfl, rfl⟩
  | tail _ hbc ih =>
    obtain ⟨h1, h2, h3⟩ := ih
    obtain ⟨g1, g2, g3⟩ := step_wDone_frozen hbc h1
    exact ⟨g1, g2.trans h2, g3.trans h3⟩

/-! ## Existence of complete runs

The strictly alternating schedule (reader publishes one slot, writer drains
it) drives any error-free copy to a state where both threads have exited. -/

/-- From a quiescent live state whose next read returns 0 bytes, two steps
finish the whole copy. -/
theorem run_finish {block_size num_block : Nat} {src : List Nat} {s : State}
    (hnb : 1 ≤ num_block)
    (hinv : Inv block_size num_block src s)
    (hrd : s.rDone = false) (hwd : s.wDone = false)
    (hkw : s.rCount = s.wCount)
    (hret : min block_size s.srcRem.length = 0) :
    ∃ t, Relation.ReflTransGen (Step block_size num_block none) s t
      ∧ t.rDone = true ∧ t.wDone = true := by
  have hntw : s.numToWrite = 0 := by
    have := hinv.ntw_eq hwd
    omega
  have hrE : readerEnabled num_block s = true := by
    simp [readerEnabled, hrd, hntw]
    omega
  have hidx : s.idxR = s.idxW := by
    rw [hinv.idxR_eq hrd, hinv.idxW_eq hwd, hkw]
  have hs1 := @readerStep_end block_size num_block none s (by simp) hret
  have hw1 : writerEnabled (readerStep block_size num_block none s) = true := by
    rw [hs1]
    simp [writerEnabled, hwd, hntw]
  have hend1 : ((readerStep block_size num_block none s).blocks
      (readerStep block_size num_block none s).idxW).endF = true := by
    rw [hs1]
    simp only
    rw [← hidx, setAt_self]
  have hs2 := @writerStep_end num_block _ hend1
  refine ⟨writerStep num_block (readerStep block_size num_block none s), ?_, ?_, ?_⟩
  · exact Relation.ReflTransGen.head (Step.reader s hrE)
      (Relation.ReflTransGen.head
        (Step.writer _ hw1) Relation.ReflTransGen.refl)
  · rw [hs2]
    simp only
    rw [hs1]
  · rw [hs2]

/-- Any quiescent live state can be driven to completion (induction on the
remaining source length, two steps at a time). -/
theorem run_exists_aux {block_size num_block : Nat} {src : List Nat}
    (hbs : 1 ≤ block_size) (hnb : 1 ≤ num_block) :
    ∀ n (s : State), s.srcRem.length ≤ n →
      Inv block_size num_block src s →
      s.rDone = false → s.wDone = false → s.rCount = s.wCount →
      ∃ t, Relation.ReflTransGen (Step block_size num_block none) s t
        ∧ t.rDone = true ∧ t.wDone = true := by
  intro n
  induction n with
  | zero =>
    intro s hlen hinv hrd hwd hkw
    have hret : min block_size s.srcRem.length = 0 := by omega
    exact run_finish hnb hinv hrd hwd hkw hret
  | succ n ih =>
    intro s hlen hinv hrd hwd hkw
    by_cases hret : min block_size s.srcRem.length = 0
    · exact run_finish hnb hinv hrd hwd hkw hret
    · have hntw : s.numToWrite = 0 := by
        have := hinv.ntw_eq hwd
        omega
      have hrE : readerEnabled num_block s = true := by
        simp [readerEnabled, hrd, hntw]
        omega
      have hidx : s.idxR = s.idxW := by
        rw [hinv.idxR_eq hrd, hinv.idxW_eq hwd, hkw]
      have hend : (s.blocks s.idxR).endF = false :=
        (hinv.reader_live hrd).2.2.2 s.idxR
      have hs1 := @readerStep_cont block_size num_block none s (by simp) hend hret
      have hinv1 : Inv block_size num_block src (readerStep block_size num_block none s) :=
        inv_reader_step hbs hinv hrE
      have hw1 : writerEnabled (readerStep block_size num_block none s) = true := by
        rw [hs1]
        simp [writerEnabled, hwd, hntw]
      have hend1 : ((readerStep block_size num_block none s).blocks
          (readerStep block_size num_block none s).idxW).endF = false := by
        rw [hs1]
        simp only
        rw [← hidx, setAt_self]
      have hs2 := @writerStep_cont num_block _ hend1
      have hinv2 : Inv block_size num_block src
          (writerStep num_block (readerStep block_size num_block none s)) :=
        inv_writer_step hinv1 hw1
      have hrec := ih (writerStep num_block (readerStep block_size num_block none s))
        (by
          rw [hs2]
          simp only
          rw [hs1]
          simp only
          rw [List.length_drop]
          omega)
        hinv2
        (by rw [hs2]; simp only; rw [hs1]; exact hrd)
        (by rw [hs2]; simp only; rw [hs1]; exact hwd)
        (by
          rw [hs2]
          simp only
          rw [hs1]
          show s.rCount + 1 = s.wCount + 1
          omega)
      obtain ⟨t, hrt, ht1, ht2⟩ := hrec
      refine ⟨t, ?_, ht1, ht2⟩
      exact Relation.ReflTransGen.head (Step.reader s hrE)
        (Relation.ReflTransGen.head (Step.writer _ hw1) hrt)

/-- For every source and every valid configuration there is a complete
error-free run: an interleaving after which both threads have exited. -/
theorem run_exists (block_size num_block : Nat) (src : List Nat)
    (buf0 : Nat → List Nat)
    (hbs : 1 ≤ block_size) (hnb : 1 ≤ num_block) :
    ∃ t, Reachable block_size num_block none src buf0 t
      ∧ t.rDone = true ∧ t.wDone = true := by
  exact run_exists_aux hbs hnb src.length (initState num_block src buf0)
    (le_refl _) (inv_init block_size num_block src buf0) rfl rfl rfl

/-! ## The end flag is set at most once

All slot end flags start false (`calloc`) and stay false while the reader is
live; the single step that sets one (source exhausted or read error) also
makes the reader exit, so at most one slot ever carries `end = true`.  This
holds for error-injected runs too. -/

/-- While the reader is live no slot is end-marked; afterwards at most one
slot is. -/
def EndFlagInv (s : State) : Prop :=
  (s.rDone = false → ∀ i, (s.blocks i).endF = false)
  ∧ (s.rDone = true → ∃ i0, ∀ i, (s.blocks i).endF = true → i = i0)

theorem endFlagInv_step {block_size num_block : Nat} {err : Option Nat} {s t : State}
    (hst : Step block_size num_block err s t) (h : EndFlagInv s) : EndFlagInv t := by
  cases hst with
  | writer ht =>
    obtain ⟨h1, _, _, h4⟩ := writerStep_reader_fields num_block s
    constructor
    · intro hr i
      rw [h4]
      exact h.1 (by rw [← h1]; exact hr) i
    · intro hr
      obtain ⟨i0, hi⟩ := h.2 (by rw [← h1]; exact hr)
      refine ⟨i0, ?_⟩
      intro i
      rw [h4]
      exact hi i
  | reader ht =>
    have hrd : s.rDone = false := by
      simp [readerEnabled] at ht
      exact ht.1
    have hall := h.1 hrd
    by_cases he : err = some s.rCount
    · rw [readerStep_err he]
      constructor
      · intro hr
        simp at hr
      · intro _
        refine ⟨s.idxR, ?_⟩
        intro i hi
        by_contra hne
        dsimp only at hi
        rw [setAt_ne _ _ _ _ hne, hall i] at hi
        cases hi
    · by_cases h0 : min block_size s.srcRem.length = 0
      · rw [readerStep_end he h0]
        constructor
        · intro hr
          simp at hr
        · intro _
          refine ⟨s.idxR, ?_⟩
          intro i hi
          by_contra hne
          dsimp only at hi
          rw [setAt_ne _ _ _ _ hne, hall i] at hi
          cases hi
      · rw [readerStep_cont he (hall s.idxR) h0]
        constructor
        · intro _ i
          simp only
          by_cases hi : i = s.idxR
          · subst hi
            rw [setAt_self]
          · rw [setAt_ne _ _ _ _ hi]
            exact hall i
        · intro hr
          simp at hr
          rw [hr] at hrd
          cases hrd

/-- Every reachable state of any run satisfies `EndFlagInv`. -/
theorem endFlagInv_reachable {block_size num_block : Nat} {err : Option Nat}
    {src : List Nat} {buf0 : Nat → List Nat} {s : State}
    (hr : Reachable block_size num_block err src buf0 s) : EndFlagInv s := by
  induction hr with
  | refl =>
    constructor
    · intro _ i
      rfl
    · intro h
      simp [initState] at h
  | tail _ hstep ih => exact endFlagInv_step hstep ih

/-! ## A failing first read deadlocks the writer

With a read error injected at the very first `read` call, the reader exits
without publishing or signaling; nothing ever raises `numToWrite`, so the
writer is never past its wait and never reaches its exit path.  This is the
liveness gap of the C code. -/

/-- Invariant of every run whose first read fails: nothing was ever
published or consumed. -/
def StuckInv (s : State) : Prop :=
  s.wDone = false ∧ s.wCount = 0 ∧ s.rCount = 0 ∧ s.numToWrite = 0 ∧ s.out = []

theorem stuckInv_step {block_size num_block : Nat} {s t : State}
    (hst : Step block_size num_block (some 0) s t) (h : StuckInv s) : StuckInv t := by
  obtain ⟨h1, h2, h3, h4, h5⟩ := h
  cases hst with
  | reader ht =>
    have he : (some 0 : Option Nat) = some s.rCount := by rw [h3]
    rw [readerStep_err he]
    exact ⟨h1, h2, h3, h4, h5⟩
  | writer ht =>
    exfalso
    rw [writerEnabled, h1, h4] at ht
    simp at ht

theorem stuckInv_reachable {block_size num_block : Nat}
    {src : List Nat} {buf0 : Nat → List Nat} {s : State}
    (hr : Reachable block_size num_block (some 0) src buf0 s) : StuckInv s := by
  induction hr with
  | refl => exact ⟨rfl, rfl, rfl, rfl, rfl⟩
  | tail _ hstep ih => exact stuckInv_step hstep ih

/-! ## `numToWrite` changes one guarded unit at a time -/

/-- Any reader iteration that publishes adds one to `numToWrite`; the error
path leaves it unchanged. -/
theorem readerStep_numToWrite (block_size num_block : Nat) (err : Option Nat) (s : State)
    (he : ¬ err = some s.rCount) :
    (readerStep block_size num_block err s).numToWrite = s.numToWrite + 1 := by
  by_cases h0 : min block_size s.srcRem.length = 0
  · rw [readerStep_end he h0]
  · by_cases h1 : (s.blocks s.idxR).endF = true
    · simp [readerStep, he, h0, h1]
    · rw [readerStep_cont he (by simpa using h1) h0]

/-! ## Concrete runs

Small executions used to instantiate the theorems on explicit inputs. -/

/-- One slot of one byte, source `[3]`: the state after the first publish. -/
def demoMid : State :=
  readerStep 1 1 none (initState 1 [3] (fun _ => []))

/-- One slot of one byte, source `[3]`: the final state of the strictly
alternating schedule (publish `⟨1,false⟩`, drain it, publish `⟨0,true⟩`,
drain it). -/
def demoFinal : State :=
  writerStep 1 (readerStep 1 1 none (writerStep 1 demoMid))

theorem demoMid_reachable : Reachable 1 1 none [3] (fun _ => []) demoMid :=
  Relation.ReflTransGen.head (Step.reader _ (by decide)) Relation.ReflTransGen.refl

theorem demoFinal_reachable : Reachable 1 1 none [3] (fun _ => []) demoFinal := by
  refine Relation.ReflTransGen.head (Step.reader _ (by decide)) ?_
  refine Relation.ReflTransGen.head (Step.writer _ (by decide)) ?_
  refine Relation.ReflTransGen.head (Step.reader _ (by decide)) ?_
  exact Relation.ReflTransGen.head (Step.writer _ (by decide)) Relation.ReflTransGen.refl

/-- Empty source, one slot of one byte: the final state (one end-marked slot
published and drained). -/
def demoEmptyFinal : State :=
  writerStep 1 (readerStep 1 1 none (initState 1 [] (fun _ => [])))

theorem demoEmptyFinal_reachable : Reachable 1 1 none [] (fun _ => []) demoEmptyFinal := by
  refine Relation.ReflTransGen.head (Step.reader _ (by decide)) ?_
  exact Relation.ReflTransGen.head (Step.writer _ (by decide)) Relation.ReflTransGen.refl

/-- Initial state of the run whose first read fails. -/
def demoErrInit : State :=
  initState 1 [7] (fun _ => [])

/-- The run whose first read fails, after the reader has died. -/
def demoErrStuck : State :=
  readerStep 1 1 (some 0) demoErrInit

theorem demoErrStuck_reachable : Reachable 1 1 (some 0) [7] (fun _ => []) demoErrStuck :=
  Relation.ReflTransGen.head (Step.reader _ (by decide)) Relation.ReflTransGen.refl

/-- A nodup list all of whose members coincide has at most one member. -/
theorem length_le_one_of_all_eq {l : List Nat} {a : Nat} (hnd : l.Nodup)
    (h : ∀ x ∈ l, x = a) : l.length ≤ 1 := by
  cases l with
  | nil => simp
  | cons x xs =>
    have hxs : xs = [] := by
      rw [List.eq_nil_iff_forall_not_mem]
      intro y hy
      have h1 : y = a := h y (List.mem_cons_of_mem x hy)
      have h2 : x = a := h x (List.mem_cons_self x xs)
      rw [h1.trans h2.symm] at hy
      exact (List.nodup_cons.mp hnd).1 hy
    simp [hxs]

/-! ## The claims -/

/-- C1: for every source and every valid configuration
(`block_size ≥ 1`, `num_block ≥ 1`), in any error-free interleaving, once the
reader and the writer have both terminated the destination holds exactly the
source bytes, in order. -/
theorem byte_fidelity {block_size num_block : Nat} {src : List Nat}
    {buf0 : Nat → List Nat} {s : State}
    (hbs : 1 ≤ block_size) (hnb : 1 ≤ num_block)
    (hr : Reachable block_size num_block none src buf0 s)
    (hrd : s.rDone = true) (hwd : s.wDone = true) :
    s.out = src :=
  ((inv_reachable hbs hr).writer_done hwd).1

theorem byte_fidelity_witness : demoFinal.out = [3] :=
  byte_fidelity (le_refl 1) (le_refl 1) demoFinal_reachable (by decide) (by decide)

/-- C2: at completion of an error-free run, `td->read` and `td->wrote`
both equal the source length (the zero-length end-marked slot contributes to
neither). -/
theorem conservation {block_size num_block : Nat} {src : List Nat}
    {buf0 : Nat → List Nat} {s : State}
    (hbs : 1 ≤ block_size) (hnb : 1 ≤ num_block)
    (hr : Reachable block_size num_block none src buf0 s)
    (hrd : s.rDone = true) (hwd : s.wDone = true) :
    s.read = src.length ∧ s.wrote = src.length := by
  have hinv := inv_reachable hbs hr
  exact ⟨(hinv.reader_done hrd).1, (hinv.writer_done hwd).2.1⟩

theorem conservation_witness : demoFinal.read = 1 ∧ demoFinal.wrote = 1 := by
  have h := conservation (le_refl 1) (le_refl 1) demoFinal_reachable
    (by decide) (by decide)
  simpa using h

/-- One step moves `numToWrite` by at most one guarded unit, keeping it in
`[0, num_block]`. -/
theorem counter_bound_step {block_size num_block : Nat} {err : Option Nat} {s t : State}
    (hst : Step block_size num_block err s t)
    (h : 0 ≤ s.numToWrite ∧ s.numToWrite ≤ (num_block : Int)) :
    0 ≤ t.numToWrite ∧ t.numToWrite ≤ (num_block : Int) := by
  obtain ⟨h1, h2⟩ := h
  cases hst with
  | reader ht =>
    obtain ⟨hrd, hlt⟩ : s.rDone = false ∧ s.numToWrite < (num_block : Int) := by
      simpa [readerEnabled] using ht
    by_cases he : err = some s.rCount
    · rw [readerStep_err he]
      exact ⟨h1, h2⟩
    · rw [readerStep_numToWrite block_size num_block err s he]
      constructor <;> omega
  | writer ht =>
    obtain ⟨hwd, hge⟩ : s.wDone = false ∧ 1 ≤ s.numToWrite := by
      simpa [writerEnabled] using ht
    by_cases hend : (s.blocks s.idxW).endF = true
    · rw [writerStep_end hend]
      exact ⟨h1, h2⟩
    · rw [writerStep_cont (by simpa using hend)]
      constructor
      · show 0 ≤ s.numToWrite - 1
        omega
      · show s.numToWrite - 1 ≤ (num_block : Int)
        omega

/-- C3: in every state reachable by any interleaving (with or without an
injected read error), `0 ≤ numToWrite ≤ num_block`: the writer never
decrements the counter below zero and the reader never raises it above the
buffer capacity. -/
theorem counter_bound {block_size num_block : Nat} {err : Option Nat}
    {src : List Nat} {buf0 : Nat → List Nat} {s : State}
    (hr : Reachable block_size num_block err src buf0 s) :
    0 ≤ s.numToWrite ∧ s.numToWrite ≤ (num_block : Int) := by
  induction hr with
  | refl => exact ⟨le_refl _, by simp [initState]⟩
  | tail _ hstep ih => exact counter_bound_step hstep ih

theorem counter_bound_witness :
    0 ≤ demoMid.numToWrite ∧ demoMid.numToWrite ≤ (1 : Int) :=
  @counter_bound 1 1 none [3] (fun _ => []) demoMid demoMid_reachable

/-- C4: the claim that a mid-copy read failure still lets the whole copy
terminate is FALSE of the code.  With the very first read failing, in every
reachable state of every interleaving the writer has not terminated, is not
past its wait (`numToWrite` is stuck at 0, and the dead reader will never
signal), and has written nothing: the writer blocks forever. -/
theorem read_error_blocks_writer {block_size num_block : Nat}
    {src : List Nat} {buf0 : Nat → List Nat} {s : State}
    (hr : Reachable block_size num_block (some 0) src buf0 s) :
    s.wDone = false ∧ writerEnabled s = false ∧ s.out = [] := by
  obtain ⟨h1, _, _, h4, h5⟩ := stuckInv_reachable hr
  refine ⟨h1, ?_, h5⟩
  rw [writerEnabled, h1, h4]
  simp

theorem read_error_blocks_writer_witness :
    demoErrStuck.wDone = false ∧ writerEnabled demoErrStuck = false
    ∧ demoErrStuck.out = [] :=
  read_error_blocks_writer demoErrStuck_reachable

/-- The complete error-free run over a 3,500,000-byte source with
`block_size = 1,000,000` publishes exactly five slots, of sizes
1,000,000 / 1,000,000 / 1,000,000 / 500,000 / 0, only the last end-marked,
and the destination equals the source. -/
theorem scenario_log {s : State}
    (hr : Reachable 1000000 2 none (List.replicate 3500000 0) (fun _ => []) s)
    (hrd : s.rDone = true) (hwd : s.wDone = true) :
    s.log.map Slot.size = [1000000, 1000000, 1000000, 500000, 0]
    ∧ s.log.map Slot.endF = [false, false, false, false, true]
    ∧ s.out = List.replicate 3500000 0 := by
  have hinv := inv_reachable (by omega) hr
  have hL : (List.replicate 3500000 (0 : Nat)).length = 3500000 :=
    List.length_replicate _ _
  obtain ⟨hread, hk, hLk, hjlt⟩ := hinv.reader_done hrd
  rw [hL] at hLk hjlt
  have hk5 : s.rCount = 5 := by
    rcases Nat.lt_or_ge s.rCount 2 with h2 | h2
    · omega
    · have h3 := hjlt (s.rCount - 2) (by omega)
      omega
  refine ⟨?_, ?_, (hinv.writer_done hwd).1⟩
  · rw [hinv.log_eq, hk5, hL]
    decide
  · rw [hinv.log_eq, hk5, hL]
    decide

/-- C5 counterexample: the claim as stated — exactly four slots produced,
sizes 1,000,000 / 1,000,000 / 1,000,000 / 500,000, the 500,000-byte slot
carrying the end mark — is false: the code publishes a fifth, zero-length
slot carrying the end mark. -/
theorem end_to_end_scenario_counterexample :
    ¬ (∀ s : State,
        Reachable 1000000 2 none (List.replicate 3500000 0) (fun _ => []) s →
        s.rDone = true → s.wDone = true →
        s.log.map Slot.size = [1000000, 1000000, 1000000, 500000]
        ∧ s.log.getLast? = some ⟨500000, true⟩) := by
  intro hclaim
  obtain ⟨t, hr, hrd, hwd⟩ := run_exists 1000000 2 (List.replicate 3500000 0)
    (fun _ => []) (by omega) (by omega)
  obtain ⟨hsz, _⟩ := hclaim t hr hrd hwd
  have h5 := (scenario_log hr hrd hwd).1
  exact absurd (hsz.symm.trans h5) (by decide)

/-- C5 amended: over the 3,500,000-byte source with
`block_size = 1,000,000` and `num_block = 2`, every complete run publishes
exactly five slots, of sizes 1,000,000 / 1,000,000 / 1,000,000 / 500,000 / 0,
and only the last (zero-length) slot carries `isEnd = true`; the destination
is bit-identical to the source. -/
theorem end_to_end_scenario {s : State}
    (hr : Reachable 1000000 2 none (List.replicate 3500000 0) (fun _ => []) s)
    (hrd : s.rDone = true) (hwd : s.wDone = true) :
    s.log.map Slot.size = [1000000, 1000000, 1000000, 500000, 0]
    ∧ s.log.map Slot.endF = [false, false, false, false, true]
    ∧ s.out = List.replicate 3500000 0 :=
  scenario_log hr hrd hwd

theorem end_to_end_scenario_witness :
    ∃ s : State,
      (Reachable 1000000 2 none (List.replicate 3500000 0) (fun _ => []) s
        ∧ s.rDone = true ∧ s.wDone = true)
      ∧ s.log.map Slot.size = [1000000, 1000000, 1000000, 500000, 0] := by
  obtain ⟨t, hr, hrd, hwd⟩ := run_exists 1000000 2 (List.replicate 3500000 0)
    (fun _ => []) (by omega) (by omega)
  exact ⟨t, ⟨hr, hrd, hwd⟩, (end_to_end_scenario hr hrd hwd).1⟩

/-- C6: when the `read` call fails, the reader records size 0 and
`end = true` on the current slot and terminates without publishing: the
counter, the published-slot count and the log are unchanged, now and in every
later state (signals are not explicit in the embedding; the absent publish is
what leaves the consumer unwoken). -/
theorem read_error_no_publish {block_size num_block : Nat} {e : Nat}
    {src : List Nat} {buf0 : Nat → List Nat} {s : State}
    (hr : Reachable block_size num_block (some e) src buf0 s)
    (hrc : s.rCount = e) (hen : readerEnabled num_block s = true) :
    (readerStep block_size num_block (some e) s).blocks s.idxR = ⟨0, true⟩
    ∧ (readerStep block_size num_block (some e) s).rDone = true
    ∧ (readerStep block_size num_block (some e) s).numToWrite = s.numToWrite
    ∧ (readerStep block_size num_block (some e) s).rCount = s.rCount
    ∧ (readerStep block_size num_block (some e) s).log = s.log
    ∧ ∀ t, Relation.ReflTransGen (Step block_size num_block (some e))
        (readerStep block_size num_block (some e) s) t →
        t.rCount = s.rCount ∧ t.log = s.log ∧ t.rDone = true := by
  have he : (some e : Option Nat) = some s.rCount := by rw [hrc]
  rw [readerStep_err he]
  refine ⟨setAt_self _ _ _, rfl, rfl, rfl, rfl, ?_⟩
  intro t ht
  have h := rtg_rDone_frozen ht rfl
  exact ⟨h.2.1, h.2.2, h.1⟩

theorem read_error_no_publish_witness :
    (readerStep 1 1 (some 0) demoErrInit).rDone = true
    ∧ (readerStep 1 1 (some 0) demoErrInit).numToWrite = demoErrInit.numToWrite
    ∧ (readerStep 1 1 (some 0) demoErrInit).log = demoErrInit.log := by
  obtain ⟨_, h2, h3, _, h5, _⟩ :=
    @read_error_no_publish 1 1 0 [7] (fun _ => []) demoErrInit
      Relation.ReflTransGen.refl rfl (by decide)
  exact ⟨h2, h3, h5⟩

/-- C7: for every slot the writer consumes, the (possibly zero-length)
write happens first; then, if the slot is end-marked the writer terminates
without decrementing `numToWrite` (and, having exited, never consumes
anything again), while otherwise it decrements the counter, accounts the
bytes and advances its cursor. -/
theorem writer_release_protocol {block_size num_block : Nat} {err : Option Nat}
    {src : List Nat} {buf0 : Nat → List Nat} {s : State}
    (hr : Reachable block_size num_block err src buf0 s)
    (hen : writerEnabled s = true) :
    ((s.blocks s.idxW).endF = true →
        (writerStep num_block s).wDone = true
        ∧ (writerStep num_block s).numToWrite = s.numToWrite
        ∧ (writerStep num_block s).out
            = s.out ++ (s.buf s.idxW).take (s.blocks s.idxW).size
        ∧ (writerStep num_block s).wrote = s.wrote
        ∧ ∀ t, Relation.ReflTransGen (Step block_size num_block err)
            (writerStep num_block s) t →
            t.wDone = true ∧ t.wCount = (writerStep num_block s).wCount
              ∧ t.out = (writerStep num_block s).out)
    ∧ ((s.blocks s.idxW).endF = false →
        (writerStep num_block s).wDone = s.wDone
        ∧ (writerStep num_block s).numToWrite = s.numToWrite - 1
        ∧ (writerStep num_block s).out
            = s.out ++ (s.buf s.idxW).take (s.blocks s.idxW).size
        ∧ (writerStep num_block s).idxW = next_block_idx num_block s.idxW
        ∧ (writerStep num_block s).wrote = s.wrote + (s.blocks s.idxW).size) := by
  constructor
  · intro hend
    rw [writerStep_end hend]
    refine ⟨rfl, rfl, rfl, rfl, ?_⟩
    intro t ht
    have h := rtg_wDone_frozen ht rfl
    exact ⟨h.1, h.2.1, h.2.2⟩
  · intro hend
    rw [writerStep_cont hend]
    exact ⟨rfl, rfl, rfl, rfl, rfl⟩

theorem writer_release_protocol_witness :
    (writerStep 1 demoMid).numToWrite = demoMid.numToWrite - 1
    ∧ (writerStep 1 demoMid).wrote
        = demoMid.wrote + (demoMid.blocks demoMid.idxW).size := by
  obtain ⟨-, h2, -, -, h5⟩ :=
    (writer_release_protocol demoMid_reachable (by decide)).2 (by decide)
  exact ⟨h2, h5⟩

/-- C8: the copy is byte-correct for every source length (in particular
for exact multiples of the block size and one byte less or more), and for the
zero-length source the reader publishes exactly one slot, of size 0 with
`isEnd = true`, and the destination is empty. -/
theorem boundary_lengths {block_size num_block : Nat} {src : List Nat}
    {buf0 : Nat → List Nat} {s : State}
    (hbs : 1 ≤ block_size)
    (hr : Reachable block_size num_block none src buf0 s)
    (hrd : s.rDone = true) (hwd : s.wDone = true) :
    s.out = src
    ∧ (src = [] →
        s.log = [⟨0, true⟩] ∧ s.out = [] ∧ s.read = 0 ∧ s.wrote = 0) := by
  have hinv := inv_reachable hbs hr
  have hout := (hinv.writer_done hwd).1
  refine ⟨hout, ?_⟩
  intro hsrc
  subst hsrc
  obtain ⟨hread, hk, hLk, hjlt⟩ := hinv.reader_done hrd
  have hk1 : s.rCount = 1 := by
    rcases Nat.lt_or_ge s.rCount 2 with h2 | h2
    · omega
    · exfalso
      have h3 := hjlt 0 (by omega)
      simp at h3
  refine ⟨?_, hout, by simpa using hread, by simpa using (hinv.writer_done hwd).2.1⟩
  have h01 : List.range 1 = [0] := by decide
  rw [hinv.log_eq, hk1, h01]
  simp [slotSpec]

theorem boundary_lengths_witness :
    demoEmptyFinal.log = [⟨0, true⟩] ∧ demoEmptyFinal.out = [] := by
  obtain ⟨-, h⟩ := boundary_lengths (le_refl 1) demoEmptyFinal_reachable
    (by decide) (by decide)
  obtain ⟨h1, h2, -, -⟩ := h rfl
  exact ⟨h1, h2⟩

/-- C9: in every reachable state of every run (error-injected or not), at
most one ring slot carries `isEnd = true` — while the reader is live, none
does — and once a thread has consumed/produced the end-marked slot and
exited, no further step changes what it published/consumed: the end-marked
slot is the last slot either task touches. -/
theorem end_marker_unique {block_size num_block : Nat} {err : Option Nat}
    {src : List Nat} {buf0 : Nat → List Nat} {s : State}
    (hr : Reachable block_size num_block err src buf0 s) :
    ((List.range num_block).filter (fun i => (s.blocks i).endF)).length ≤ 1
    ∧ (s.rDone = false →
        (List.range num_block).filter (fun i => (s.blocks i).endF) = [])
    ∧ (∀ t, Step block_size num_block err s t →
        (s.rDone = true → t.rCount = s.rCount ∧ t.log = s.log)
        ∧ (s.wDone = true → t.wCount = s.wCount ∧ t.out = s.out)) := by
  have h := endFlagInv_reachable hr
  have hnil : s.rDone = false →
      (List.range num_block).filter (fun i => (s.blocks i).endF) = [] := by
    intro hrd
    rw [List.filter_eq_nil_iff]
    intro a _
    simp [h.1 hrd a]
  refine ⟨?_, hnil, ?_⟩
  · cases hrd : s.rDone
    · rw [hnil hrd]
      simp
    · obtain ⟨i0, hi⟩ := h.2 hrd
      apply length_le_one_of_all_eq ((List.nodup_range num_block).filter _)
      intro x hx
      have hmem := List.of_mem_filter hx
      exact hi x (by simpa using hmem)
  · intro t hst
    constructor
    · intro hrd
      have g := step_rDone_frozen hst hrd
      exact ⟨g.2.1, g.2.2⟩
    · intro hwd
      have g := step_wDone_frozen hst hwd
      exact ⟨g.2.1, g.2.2⟩

theorem end_marker_unique_witness :
    ((List.range 1).filter (fun i => (demoFinal.blocks i).endF)).length ≤ 1 :=
  (end_marker_unique demoFinal_reachable).1

/-- C10: the status observer divides `read * 100` and `wrote * 100` by
`td->fsize` with no guard: the tick is well-defined exactly when the source
length is positive, and on a zero-length source the divisor is 0 already at
the first tick (`read = wrote = 0`). -/
theorem status_percent_guard :
    (∀ read wrote fsize : Nat, 0 < fsize →
      statusTick read wrote fsize
        = some ((read * 100) / fsize, (wrote * 100) / fsize))
    ∧ statusTick 0 0 (fsizeOf []) = none := by
  constructor
  · intro read wrote fsize hf
    have hne : fsize ≠ 0 := by omega
    simp [statusTick, cdiv, hne]
  · rfl

theorem status_percent_guard_witness :
    statusTick 2 3 4 = some (50, 75) ∧ statusTick 0 0 (fsizeOf []) = none := by
  constructor
  · have h := status_percent_guard.1 2 3 4 (by decide)
    simpa using h
  · exact status_percent_guard.2

end ImageWriter
